import Mathlib

/-!
# Buxfer ledger core (`lists.c`)

A shallow embedding of the group / user / transaction lists of `lists.c`.

* A singly linked list (`next` pointers, `NULL` at the end) is a Lean `List` of its
  nodes in link order; a pointer into a list is the position of its node, and the chain
  hanging off a node at position `i` is `List.drop (i + 1)`.
* `double` balances and amounts are exact rationals `ℚ` (no rounding, no NaN).
* A function that returns `int` and mutates its group returns the pair
  (return code, group after the call); a function that prints returns what it prints.
* `malloc` is assumed to succeed (the source exits the process otherwise).
-/

namespace Buxfer

/-! ## Data model -/

/-- Modelled from the spec: `lists.h` is not among the sources; a user node carries a
name and a signed numeric balance (the `next` link is the list structure). -/
structure User where
  name : String
  balance : ℚ
deriving DecidableEq

/-- Modelled from the spec: `lists.h` is not among the sources; a transaction node
carries the user name it was posted under and the amount. -/
structure Xct where
  name : String
  amount : ℚ
deriving DecidableEq

/-- Modelled from the spec: `lists.h` is not among the sources; a group node carries
its name, its user list (`users`) and its transaction list (`xcts`). -/
structure Group where
  name : String
  users : List User
  xcts : List Xct
deriving DecidableEq

/-! ## Group registry -/

/-- The `while` loop of `add_group` (lines 49-62) run on the chain starting at
`curr_group`; `none` is the `return -1` of a duplicate name, `some l` the chain after
the loop has linked `group` behind its last node. -/
def add_group_loop (group : Group) : List Group → Option (List Group)
  | [] => some [] -- not reached: the loop is entered on a node and left by `break`
  | curr_group :: rest =>
    if curr_group.name = group.name then none
    else
      match rest with
      | [] => some [curr_group, group]
      | nxt :: rest2 => (add_group_loop group (nxt :: rest2)).map (fun l => curr_group :: l)

/-- The function `add_group` (lines 17-64). The new node gets its `name`, `users = NULL` and
`next = NULL`; its `xcts` field is never assigned, so it holds whatever the allocated
block held, here the parameter `uninit`. -/
def add_group (uninit : List Xct) (group_list : List Group) (group_name : String) :
    Int × List Group :=
  let group : Group := ⟨group_name, [], uninit⟩
  match group_list with
  | [] => (0, [group])
  | first :: rest =>
    match add_group_loop group (first :: rest) with
    | none => (-1, group_list)
    | some l => (0, l)

/-- The function `find_group` (lines 84-97): the first node of the chain whose name is
`group_name`, `none` for `NULL`. The pointer returned is modelled by the node it points
to. -/
def find_group : List Group → String → Option Group
  | [], _ => none
  | curr_group :: rest, group_name =>
    if curr_group.name = group_name then some curr_group
    else find_group rest group_name

/-! ## Roster -/

/-- The `while` loop of `find_prev_user` (lines 264-269): the list is the chain from
`curr`, `prev` the position of the node before it. -/
def find_prev_user_loop (user_name : String) : List User → Nat → Option Nat
  | [], _ => none
  | curr :: rest, prev =>
    if curr.name = user_name then some prev
    else find_prev_user_loop user_name rest (prev + 1)

/-- The function `find_prev_user` (lines 248-272): the position of the node before the first user
called `user_name`, position `0` when that user is the head, `none` for `NULL`. -/
def find_prev_user (group : Group) (user_name : String) : Option Nat :=
  match group.users with
  | [] => none
  | first :: rest =>
    if first.name = user_name then some 0
    else find_prev_user_loop user_name rest 0

/-- The function `add_user` (lines 104-137): a duplicate name returns -1, otherwise
the new user, balance 0, becomes the head of the list. -/
def add_user (group : Group) (user_name : String) : Int × Group :=
  match find_prev_user group user_name with
  | some _ => (-1, group)
  | none => (0, ⟨group.name, ⟨user_name, 0⟩ :: group.users, group.xcts⟩)

/-! ## Transaction log -/

/-- The `while` loop of `remove_xct` (lines 359-384). `kept` are the nodes already
passed that stay linked from `group->xcts`, `at_head` says that `prev_xct == curr_xct`,
and the list argument is the chain from `curr_xct`. The result is the final list. -/
def remove_xct_loop (user_name : String) : List Xct → Bool → List Xct → List Xct
  | kept, _, [] => kept
  | kept, at_head, curr_xct :: rest =>
    if curr_xct.name = user_name then
      if at_head then
        -- group->xcts = curr_xct->next; prev_xct = curr_xct = that node
        remove_xct_loop user_name [] true rest
      else
        -- prev_xct->next = curr_xct->next; curr_xct = prev_xct->next
        remove_xct_loop user_name kept false rest
    else
      -- prev_xct becomes (or already is) curr_xct; curr_xct = curr_xct->next
      remove_xct_loop user_name (kept ++ [curr_xct]) false rest

/-- The function `remove_xct` (lines 355-385). -/
def remove_xct (group : Group) (user_name : String) : Group :=
  ⟨group.name, group.users, remove_xct_loop user_name [] true group.xcts⟩

/-- The function `remove_user` (lines 146-176): unlink the matching node, at the head
or behind `prev_user`, then prune its transactions. -/
def remove_user (group : Group) (user_name : String) : Int × Group :=
  match find_prev_user group user_name with
  | some prev =>
    match group.users.drop prev with
    | [] => (-1, group) -- not reached: `prev_user` is a node of the list
    | prev_user :: after_prev =>
      if prev_user.name = user_name then
        -- curr_user = prev_user; group->users = curr_user->next
        (0, remove_xct ⟨group.name, after_prev, group.xcts⟩ prev_user.name)
      else
        match after_prev with
        | [] => (-1, group) -- not reached: `prev_user->next` is the matching node
        | curr_user :: after_curr =>
          -- prev_user->next = curr_user->next
          (0, remove_xct ⟨group.name, group.users.take (prev + 1) ++ after_curr, group.xcts⟩
            curr_user.name)
  | none => (-1, group)

/-- The `while` loop of `add_xct` (lines 316-318). `temp` is the node under the cursor,
the list argument the chain `temp->next, ...`. The result is the pair of the nodes from
the first cursor position up to and including the final `temp`, and the chain behind the
final `temp`. -/
def add_xct_scan (balance : ℚ) (temp : User) : List User → List User × List User
  | [] => ([temp], [])
  | nxt :: rest =>
    if balance ≥ nxt.balance then
      (temp :: (add_xct_scan balance nxt rest).1, (add_xct_scan balance nxt rest).2)
    else ([temp], nxt :: rest)

/-- The function `add_xct` (lines 280-331): push the transaction, add the amount to the
balance, then unlink the node and link it behind the final `temp`. -/
def add_xct (group : Group) (user_name : String) (amount : ℚ) : Int × Group :=
  match find_prev_user group user_name with
  | none => (-1, group)
  | some prev =>
    match group.users.drop prev with
    | [] => (-1, group) -- not reached: `prev` is a node of the list
    | prev_user :: _ =>
      let curr := if prev_user.name = user_name then prev else prev + 1
      match group.users.drop curr with
      | [] => (-1, group) -- not reached: `curr` is the matching node
      | curr_user :: after_curr =>
        let xcts : List Xct := ⟨curr_user.name, amount⟩ :: group.xcts
        let updated : User := ⟨curr_user.name, curr_user.balance + amount⟩
        match after_curr with
        | [] => (0, ⟨group.name, group.users.take curr ++ [updated], xcts⟩)
        | temp :: rest =>
          let r := add_xct_scan updated.balance temp rest
          if curr = prev then
            -- group->users = curr->next
            (0, ⟨group.name, r.1 ++ updated :: r.2, xcts⟩)
          else
            -- prev->next = curr->next
            (0, ⟨group.name, group.users.take (prev + 1) ++ (r.1 ++ updated :: r.2), xcts⟩)

/-- The `while` loop of `recent_xct` (lines 343-347): the entries printed from the
chain at `curr_xct` with counter `i`. -/
def recent_xct_loop (nu_xct : Int) : List Xct → Int → List Xct
  | [], _ => []
  | curr_xct :: rest, i =>
    if i < nu_xct then curr_xct :: recent_xct_loop nu_xct rest (i + 1) else []

/-- The function `recent_xct` (lines 339-348): the (name, amount) lines printed, in print order. -/
def recent_xct (group : Group) (nu_xct : Int) : List Xct :=
  recent_xct_loop nu_xct group.xcts 0

/-! ## Queries -/

/-- The `while` loop of `under_paid` (lines 228-234): the names printed from the chain
at `curr_user`. -/
def under_paid_loop (least_balance : Int) : List User → List String
  | [] => []
  | curr_user :: rest =>
    if curr_user.balance = (least_balance : ℚ) then
      curr_user.name :: under_paid_loop least_balance rest
    else []

/-- The function `under_paid` (lines 217-236): return code and the names printed. The first balance
is stored in an `int` (line 225), which truncates it toward zero. -/
def under_paid (group : Group) : Int × List String :=
  match group.users with
  | [] => (-1, [])
  | first :: _ =>
    let least_balance : Int := Int.tdiv first.balance.num first.balance.den
    (0, under_paid_loop least_balance group.users)

/-- The function `list_users` (lines 182-191): the names printed, in list order. -/
def list_users (group : Group) : List String :=
  group.users.map (fun u => u.name)

/-- The function `user_balance` (lines 196-210): return code and the balances printed
(none on failure, one on success). -/
def user_balance (group : Group) (user_name : String) : Int × List ℚ :=
  match find_prev_user group user_name with
  | none => (-1, [])
  | some prev =>
    match group.users.drop prev with
    | [] => (0, []) -- not reached: `prev_user` is a node of the list
    | prev_user :: after_prev =>
      if prev_user.name = user_name then (0, [prev_user.balance])
      else
        match after_prev with
        | [] => (0, []) -- not reached: `prev_user->next` is the matching node
        | nxt :: _ => (0, [nxt.balance])

/-! ## Call sequences -/

/-- One call on a group. -/
inductive Op where
  | add_user (user_name : String)
  | remove_user (user_name : String)
  | add_xct (user_name : String) (amount : ℚ)
deriving DecidableEq

/-- The group after one call. -/
def step (group : Group) : Op → Group
  | Op.add_user n => (add_user group n).2
  | Op.remove_user n => (remove_user group n).2
  | Op.add_xct n a => (add_xct group n a).2

/-- The group after a sequence of calls, first call first. -/
def run (group : Group) (ops : List Op) : Group :=
  ops.foldl step group

/-- A group with no users and no transactions. -/
def empty_group (name : String) : Group := ⟨name, [], []⟩

/-- Every adjacent pair of the user list is in non-decreasing balance order. -/
def sorted_by_balance (users : List User) : Prop :=
  List.Chain' (fun u v => u.balance ≤ v.balance) users

/-! ## Notions used to state the results -/

/-- The chain that replaces `curr, curr->next, ...` when `add_xct` has relinked the
updated node `u` whose old successors are the list argument (lines 310-329). -/
def add_xct_relink (u : User) : List User → List User
  | [] => [u]
  | temp :: rest =>
    (add_xct_scan u.balance temp rest).1 ++ u :: (add_xct_scan u.balance temp rest).2

/-- The sum of the amounts of the log entries that carry the name `n`. -/
def log_sum (xcts : List Xct) (n : String) : ℚ :=
  ((xcts.filter (fun x => decide (x.name = n))).map (fun x => x.amount)).sum

/-- A post of `a` under the name `n` that keeps within the forward re-sort: if the
roster has a user called `n`, then `a` is non-negative and the first such user is the
last node or its successor's balance is at most its own balance plus `a`. -/
def post_in_order (n : String) (a : ℚ) : List User → Bool
  | [] => true
  | u :: rest =>
    if u.name = n then
      decide (0 ≤ a) &&
        (match rest with
          | [] => true
          | v :: _ => decide (v.balance ≤ u.balance + a))
    else post_in_order n a rest

/-- A call that keeps within the forward re-sort: any `add_user` or `remove_user`, and
any post that is `post_in_order` on the roster it meets. -/
def op_in_order (group : Group) : Op → Bool
  | Op.add_xct n a => post_in_order n a group.users
  | _ => true

/-- Every call of the sequence, on the group it is applied to, is `op_in_order`. -/
def ops_in_order : Group → List Op → Bool
  | _, [] => true
  | group, op :: rest => op_in_order group op && ops_in_order (step group op) rest

/-- Names are unique, every log entry names a roster user, every balance is the sum of
the user's own log entries. -/
def consistent (group : Group) : Prop :=
  (group.users.map (fun u => u.name)).Nodup ∧
  (∀ x ∈ group.xcts, ∃ u ∈ group.users, u.name = x.name) ∧
  (∀ u ∈ group.users, u.balance = log_sum group.xcts u.name)

/-! ## Lemmas on the roster search -/

theorem find_prev_user_loop_none (n : String) (l : List User) (k : Nat) :
    find_prev_user_loop n l k = none ↔ ∀ u ∈ l, u.name ≠ n := by
  induction l generalizing k with
  | nil => simp [find_prev_user_loop]
  | cons c rest ih =>
    by_cases hc : c.name = n
    · simp [find_prev_user_loop, hc]
    · simp [find_prev_user_loop, hc, ih]

theorem find_prev_user_none (g : Group) (n : String) :
    find_prev_user g n = none ↔ ∀ u ∈ g.users, u.name ≠ n := by
  unfold find_prev_user
  cases hu : g.users with
  | nil => simp
  | cons first rest =>
    by_cases hc : first.name = n
    · simp [hc]
    · simp [hc, find_prev_user_loop_none]

theorem find_prev_user_loop_found (n : String) (mid : List User) (cu : User)
    (after : List User) (k : Nat) (hmid : ∀ u ∈ mid, u.name ≠ n) (hcu : cu.name = n) :
    find_prev_user_loop n (mid ++ cu :: after) k = some (k + mid.length) := by
  induction mid generalizing k with
  | nil => simp [find_prev_user_loop, hcu]
  | cons m rest ih =>
    have hm : m.name ≠ n := hmid m (by simp)
    have hrest : ∀ u ∈ rest, u.name ≠ n := fun u hu => hmid u (by simp [hu])
    simp [find_prev_user_loop, hm, ih (k + 1) hrest]
    omega

theorem find_prev_user_head (g : Group) (n : String) (cu : User) (after : List User)
    (h : g.users = cu :: after) (hcu : cu.name = n) : find_prev_user g n = some 0 := by
  simp [find_prev_user, h, hcu]

theorem find_prev_user_inner (g : Group) (n : String) (init : List User) (last cu : User)
    (after : List User) (h : g.users = init ++ last :: cu :: after)
    (hinit : ∀ u ∈ init, u.name ≠ n) (hlast : last.name ≠ n) (hcu : cu.name = n) :
    find_prev_user g n = some init.length := by
  cases init with
  | nil =>
    simp at h
    simp [find_prev_user, h, hlast, find_prev_user_loop, hcu]
  | cons i0 is =>
    have hi0 : i0.name ≠ n := hinit i0 (by simp)
    have hmid : ∀ u ∈ is ++ [last], u.name ≠ n := by
      intro u hu
      rcases List.mem_append.1 hu with hu | hu
      · exact hinit u (by simp [hu])
      · simp at hu; subst hu; exact hlast
    have hl := find_prev_user_loop_found n (is ++ [last]) cu after 0 hmid hcu
    simp at hl
    simp [find_prev_user, h, hi0, hl]

/-- Every roster with a user called `n` splits at the first such user. -/
theorem exists_first_named (users : List User) (n : String)
    (h : ∃ u ∈ users, u.name = n) :
    ∃ before cu after, users = before ++ cu :: after ∧ cu.name = n ∧
      (∀ u ∈ before, u.name ≠ n) ∧
      users.eraseP (fun u => decide (u.name = n)) = before ++ after := by
  obtain ⟨u, hu, hn⟩ := h
  obtain ⟨a, l1, l2, h1, h2, h3, h4⟩ :=
    List.exists_of_eraseP (p := fun u => decide (u.name = n)) hu (by simpa using hn)
  refine ⟨l1, a, l2, h3, by simpa using h2, ?_, h4⟩
  intro b hb
  simpa using h1 b hb

/-! ## Lemmas on the operations -/

theorem remove_xct_loop_eq (n : String) (l : List Xct) :
    (∀ kept, remove_xct_loop n kept false l = kept ++ l.filter (fun x => decide (x.name ≠ n))) ∧
    remove_xct_loop n [] true l = l.filter (fun x => decide (x.name ≠ n)) := by
  induction l with
  | nil => simp [remove_xct_loop]
  | cons x rest ih =>
    by_cases hx : x.name = n
    · simp [remove_xct_loop, hx, ih.1, ih.2]
    · simp [remove_xct_loop, hx, ih.1]

theorem remove_xct_xcts (g : Group) (n : String) :
    (remove_xct g n).xcts = g.xcts.filter (fun x => decide (x.name ≠ n)) := by
  simp [remove_xct, (remove_xct_loop_eq n g.xcts).2]

theorem add_xct_of_split (g : Group) (n : String) (a : ℚ) (before : List User) (cu : User)
    (after : List User) (h : g.users = before ++ cu :: after) (hcu : cu.name = n)
    (hb : ∀ u ∈ before, u.name ≠ n) :
    add_xct g n a = (0, ⟨g.name, before ++ add_xct_relink ⟨n, cu.balance + a⟩ after,
      ⟨n, a⟩ :: g.xcts⟩) := by
  rcases List.eq_nil_or_concat before with rfl | ⟨init, last, rfl⟩
  · simp at h
    have hf := find_prev_user_head g n cu after h hcu
    cases after with
    | nil => simp [add_xct, hf, h, hcu, add_xct_relink]
    | cons t rest => simp [add_xct, hf, h, hcu, add_xct_relink]
  · rw [List.concat_eq_append] at h hb
    have hlast : last.name ≠ n := hb last (by simp)
    have hinit : ∀ u ∈ init, u.name ≠ n := fun u hu => hb u (by simp [hu])
    have h2 : g.users = init ++ last :: cu :: after := by simp [h]
    have hf := find_prev_user_inner g n init last cu after h2 hinit hlast hcu
    have hd1 : List.drop init.length g.users = last :: cu :: after := by
      rw [h2]; simp
    have hd2 : List.drop (init.length + 1) g.users = cu :: after := by
      rw [h]
      have : init.length + 1 = (init ++ [last]).length := by simp
      rw [this, List.drop_left]
    have ht2 : List.take (init.length + 1) g.users = init ++ [last] := by
      rw [h]
      have : init.length + 1 = (init ++ [last]).length := by simp
      rw [this, List.take_left]
    cases after with
    | nil => simp [add_xct, hf, hd1, hlast, hd2, ht2, hcu, add_xct_relink]
    | cons t rest => simp [add_xct, hf, hd1, hlast, hd2, ht2, hcu, add_xct_relink]

theorem remove_user_of_split (g : Group) (n : String) (before : List User) (cu : User)
    (after : List User) (h : g.users = before ++ cu :: after) (hcu : cu.name = n)
    (hb : ∀ u ∈ before, u.name ≠ n) :
    remove_user g n = (0, ⟨g.name, before ++ after,
      g.xcts.filter (fun x => decide (x.name ≠ n))⟩) := by
  rcases List.eq_nil_or_concat before with rfl | ⟨init, last, rfl⟩
  · simp at h
    have hf := find_prev_user_head g n cu after h hcu
    simp [remove_user, hf, h, hcu, remove_xct, (remove_xct_loop_eq n g.xcts).2]
  · rw [List.concat_eq_append] at h hb
    have hlast : last.name ≠ n := hb last (by simp)
    have hinit : ∀ u ∈ init, u.name ≠ n := fun u hu => hb u (by simp [hu])
    have h2 : g.users = init ++ last :: cu :: after := by simp [h]
    have hf := find_prev_user_inner g n init last cu after h2 hinit hlast hcu
    have hd1 : List.drop init.length g.users = last :: cu :: after := by
      rw [h2]; simp
    have ht2 : List.take (init.length + 1) g.users = init ++ [last] := by
      rw [h]
      have : init.length + 1 = (init ++ [last]).length := by simp
      rw [this, List.take_left]
    simp [remove_user, hf, hd1, hlast, ht2, hcu, remove_xct, (remove_xct_loop_eq n g.xcts).2]

theorem add_xct_of_absent (g : Group) (n : String) (a : ℚ)
    (h : ∀ u ∈ g.users, u.name ≠ n) : add_xct g n a = (-1, g) := by
  simp [add_xct, (find_prev_user_none g n).2 h]

theorem remove_user_of_absent (g : Group) (n : String)
    (h : ∀ u ∈ g.users, u.name ≠ n) : remove_user g n = (-1, g) := by
  simp [remove_user, (find_prev_user_none g n).2 h]

theorem add_user_of_absent (g : Group) (n : String)
    (h : ∀ u ∈ g.users, u.name ≠ n) :
    add_user g n = (0, ⟨g.name, ⟨n, 0⟩ :: g.users, g.xcts⟩) := by
  simp [add_user, (find_prev_user_none g n).2 h]

theorem add_user_of_present (g : Group) (n : String)
    (h : ∃ u ∈ g.users, u.name = n) : add_user g n = (-1, g) := by
  have hne : find_prev_user g n ≠ none := by
    intro hnone
    obtain ⟨u, hu, hn⟩ := h
    exact (find_prev_user_none g n).1 hnone u hu hn
  unfold add_user
  cases hf : find_prev_user g n with
  | none => exact absurd hf hne
  | some p => rfl

theorem add_xct_scan_spec (b : ℚ) (rest : List User) (temp : User) :
    ∃ passed, (add_xct_scan b temp rest).1 = temp :: passed ∧
      temp :: rest = temp :: passed ++ (add_xct_scan b temp rest).2 ∧
      (∀ x ∈ passed, x.balance ≤ b) ∧
      (∀ y ∈ (add_xct_scan b temp rest).2.head?, b < y.balance) := by
  induction rest generalizing temp with
  | nil => exact ⟨[], by simp [add_xct_scan]⟩
  | cons nxt rest ih =>
    by_cases hc : b ≥ nxt.balance
    · obtain ⟨p, h1, h2, h3, h4⟩ := ih nxt
      refine ⟨nxt :: p, ?_, ?_, ?_, ?_⟩
      · simp [add_xct_scan, hc, h1]
      · simp only [add_xct_scan, hc, if_true]
        rw [h2]; simp
      · intro x hx
        rcases List.mem_cons.1 hx with rfl | hx
        · exact hc
        · exact h3 x hx
      · simpa [add_xct_scan, hc] using h4
    · refine ⟨[], ?_, ?_, ?_, ?_⟩
      · simp [add_xct_scan, hc]
      · simp [add_xct_scan, hc]
      · simp
      · simp only [add_xct_scan, hc, if_false]
        simpa using hc

theorem add_xct_relink_perm (u : User) (after : List User) :
    List.Perm (add_xct_relink u after) (u :: after) := by
  cases after with
  | nil => simp [add_xct_relink]
  | cons temp rest =>
    obtain ⟨p, h1, h2, -, -⟩ := add_xct_scan_spec u.balance rest temp
    simp only [add_xct_relink]
    rw [h2, h1]
    exact List.perm_middle

/-- The two outcomes of `add_xct`, on the split of the roster at the target. -/
theorem add_xct_cases (g : Group) (n : String) (a : ℚ) :
    ((∀ u ∈ g.users, u.name ≠ n) ∧ add_xct g n a = (-1, g)) ∨
    ∃ before cu after, g.users = before ++ cu :: after ∧ cu.name = n ∧
      (∀ u ∈ before, u.name ≠ n) ∧
      add_xct g n a = (0, ⟨g.name, before ++ add_xct_relink ⟨n, cu.balance + a⟩ after,
        ⟨n, a⟩ :: g.xcts⟩) := by
  by_cases h : ∃ u ∈ g.users, u.name = n
  · right
    obtain ⟨before, cu, after, h1, h2, h3, -⟩ := exists_first_named g.users n h
    exact ⟨before, cu, after, h1, h2, h3, add_xct_of_split g n a before cu after h1 h2 h3⟩
  · left
    have h2 : ∀ u ∈ g.users, u.name ≠ n := fun u hu hn => h ⟨u, hu, hn⟩
    exact ⟨h2, add_xct_of_absent g n a h2⟩

/-- The two outcomes of `remove_user`, on the split of the roster at the target. -/
theorem remove_user_cases (g : Group) (n : String) :
    ((∀ u ∈ g.users, u.name ≠ n) ∧ remove_user g n = (-1, g)) ∨
    ∃ before cu after, g.users = before ++ cu :: after ∧ cu.name = n ∧
      (∀ u ∈ before, u.name ≠ n) ∧
      g.users.eraseP (fun u => decide (u.name = n)) = before ++ after ∧
      remove_user g n = (0, ⟨g.name, before ++ after,
        g.xcts.filter (fun x => decide (x.name ≠ n))⟩) := by
  by_cases h : ∃ u ∈ g.users, u.name = n
  · right
    obtain ⟨before, cu, after, h1, h2, h3, h4⟩ := exists_first_named g.users n h
    exact ⟨before, cu, after, h1, h2, h3, h4, remove_user_of_split g n before cu after h1 h2 h3⟩
  · left
    have h2 : ∀ u ∈ g.users, u.name ≠ n := fun u hu hn => h ⟨u, hu, hn⟩
    exact ⟨h2, remove_user_of_absent g n h2⟩

/-- The two outcomes of `add_user`. -/
theorem add_user_cases (g : Group) (n : String) :
    ((∃ u ∈ g.users, u.name = n) ∧ add_user g n = (-1, g)) ∨
    ((∀ u ∈ g.users, u.name ≠ n) ∧
      add_user g n = (0, ⟨g.name, ⟨n, 0⟩ :: g.users, g.xcts⟩)) := by
  by_cases h : ∃ u ∈ g.users, u.name = n
  · exact Or.inl ⟨h, add_user_of_present g n h⟩
  · have h2 : ∀ u ∈ g.users, u.name ≠ n := fun u hu hn => h ⟨u, hu, hn⟩
    exact Or.inr ⟨h2, add_user_of_absent g n h2⟩

theorem recent_xct_loop_mem (nu : Int) (l : List Xct) (i : Int) :
    ∀ x ∈ recent_xct_loop nu l i, x ∈ l := by
  induction l generalizing i with
  | nil => simp [recent_xct_loop]
  | cons c rest ih =>
    intro x hx
    by_cases hi : i < nu
    · simp only [recent_xct_loop, hi, if_true, List.mem_cons] at hx
      rcases hx with rfl | hx
      · simp
      · exact List.mem_cons_of_mem _ (ih (i + 1) x hx)
    · simp [recent_xct_loop, hi] at hx

theorem add_group_loop_eq (group : Group) (l : List Group) (hl : l ≠ []) :
    add_group_loop group l =
      if ∃ g ∈ l, g.name = group.name then none else some (l ++ [group]) := by
  induction l with
  | nil => exact absurd rfl hl
  | cons c rest ih =>
    by_cases hc : c.name = group.name
    · cases rest <;> simp [add_group_loop, hc]
    · cases rest with
      | nil => simp [add_group_loop, hc]
      | cons nxt rest2 =>
        have ih2 := ih (by simp)
        simp only [add_group_loop, hc, if_false, ih2]
        by_cases hex : ∃ g ∈ nxt :: rest2, g.name = group.name
        · have : ∃ g ∈ c :: nxt :: rest2, g.name = group.name := by
            obtain ⟨g, hg, hn⟩ := hex
            exact ⟨g, List.mem_cons_of_mem _ hg, hn⟩
          simp only [hex, this, if_true, Option.map_none']
        · have : ¬ ∃ g ∈ c :: nxt :: rest2, g.name = group.name := by
            rintro ⟨g, hg, hn⟩
            rcases List.mem_cons.1 hg with rfl | hg
            · exact hc hn
            · exact hex ⟨g, hg, hn⟩
          simp only [hex, this, if_false, Option.map_some', List.cons_append]

theorem add_group_eq (uninit : List Xct) (reg : List Group) (n : String) :
    add_group uninit reg n =
      if ∃ g ∈ reg, g.name = n then (-1, reg) else (0, reg ++ [⟨n, [], uninit⟩]) := by
  cases reg with
  | nil => simp [add_group]
  | cons first rest =>
    simp only [add_group]
    rw [add_group_loop_eq _ _ (by simp)]
    by_cases hex : ∃ g ∈ first :: rest, g.name = n
    · simp only [hex, if_true]
    · simp only [hex, if_false]

theorem post_in_order_split (n : String) (a : ℚ) (before : List User) (cu : User)
    (after : List User) (hcu : cu.name = n) (hb : ∀ u ∈ before, u.name ≠ n)
    (h : post_in_order n a (before ++ cu :: after) = true) :
    0 ≤ a ∧ ∀ t ∈ after.head?, t.balance ≤ cu.balance + a := by
  induction before with
  | nil =>
    cases after with
    | nil => simpa [post_in_order, hcu] using h
    | cons t rest => simpa [post_in_order, hcu] using h
  | cons b bs ih =>
    have hbn : b.name ≠ n := hb b (by simp)
    have hbs : ∀ u ∈ bs, u.name ≠ n := fun u hu => hb u (by simp [hu])
    apply ih hbs
    simpa [post_in_order, hbn] using h

theorem add_xct_relink_pairwise (before after : List User) (cu : User) (n : String) (a : ℚ)
    (hs : (before ++ cu :: after).Pairwise (fun u v => u.balance ≤ v.balance))
    (ha : 0 ≤ a) (hsucc : ∀ t ∈ after.head?, t.balance ≤ cu.balance + a) :
    (before ++ add_xct_relink ⟨n, cu.balance + a⟩ after).Pairwise
      (fun u v => u.balance ≤ v.balance) := by
  cases after with
  | nil =>
    simp only [add_xct_relink, List.pairwise_append, List.pairwise_cons, List.mem_cons,
      List.mem_singleton, List.not_mem_nil, List.Pairwise.nil] at hs ⊢
    refine ⟨hs.1, by simp, ?_⟩
    intro x hx y hy
    rcases hy with rfl | hy
    · have := hs.2.2 x hx cu (Or.inl rfl)
      simp only
      linarith
    · exact absurd hy id
  | cons t rest =>
    obtain ⟨p, h1, h2, h3, h4⟩ := add_xct_scan_spec (cu.balance + a) rest t
    have ht : t.balance ≤ cu.balance + a := hsucc t (by simp)
    simp only [add_xct_relink]
    rw [h1]
    rw [h2] at hs
    generalize (add_xct_scan (cu.balance + a) t rest).2 = r at hs h4 ⊢
    simp only [List.pairwise_append, List.pairwise_cons, List.mem_append, List.mem_cons,
      List.cons_append] at hs ⊢
    obtain ⟨hb, ⟨hcu, ⟨htl, hp, hr, hpr⟩⟩, hbx⟩ := hs
    have hur : ∀ y ∈ r, cu.balance + a ≤ y.balance := by
      intro y hy
      cases r with
      | nil => simp at hy
      | cons y0 ys =>
        have h0 : cu.balance + a < y0.balance := h4 y0 (by simp)
        rcases List.mem_cons.1 hy with rfl | hy
        · exact le_of_lt h0
        · have := (List.pairwise_cons.1 hr).1 y hy
          linarith
    refine ⟨hb, ⟨?_, ⟨hp, ⟨hur, hr⟩, ?_⟩⟩, ?_⟩
    · intro y hy
      rcases hy with hy | rfl | hy
      · exact htl y (Or.inl hy)
      · exact ht
      · exact htl y (Or.inr hy)
    · intro x hx y hy
      rcases hy with rfl | hy
      · exact h3 x hx
      · exact hpr x hx y hy
    · intro x hx y hy
      rcases hy with rfl | hy | rfl | hy
      · exact hbx x hx y (Or.inr (Or.inl rfl))
      · exact hbx x hx y (Or.inr (Or.inr (Or.inl hy)))
      · have := hbx x hx cu (Or.inl rfl)
        simp only
        linarith
      · exact hbx x hx y (Or.inr (Or.inr (Or.inr hy)))

theorem mem_add_xct_relink (before after : List User) (u x : User) :
    x ∈ before ++ add_xct_relink u after ↔ x ∈ before ∨ x = u ∨ x ∈ after := by
  rw [List.mem_append, (add_xct_relink_perm u after).mem_iff, List.mem_cons]

theorem step_keeps_order (g : Group) (op : Op)
    (hs : g.users.Pairwise (fun u v => u.balance ≤ v.balance))
    (hpos : ∀ u ∈ g.users, 0 ≤ u.balance) (hop : op_in_order g op = true) :
    (step g op).users.Pairwise (fun u v => u.balance ≤ v.balance) ∧
      ∀ u ∈ (step g op).users, 0 ≤ u.balance := by
  cases op with
  | add_user n =>
    rcases add_user_cases g n with ⟨-, h⟩ | ⟨-, h⟩
    · simp only [step, h]; exact ⟨hs, hpos⟩
    · simp only [step, h, List.pairwise_cons, List.mem_cons]
      refine ⟨⟨fun u hu => hpos u hu, hs⟩, ?_⟩
      rintro u (rfl | hu)
      · exact le_refl _
      · exact hpos u hu
  | remove_user n =>
    rcases remove_user_cases g n with ⟨-, h⟩ | ⟨before, cu, after, h1, -, -, -, h⟩
    · simp only [step, h]; exact ⟨hs, hpos⟩
    · simp only [step, h]
      have hsub : List.Sublist (before ++ after) g.users := by
        rw [h1]
        exact List.Sublist.append_left (List.sublist_cons_self cu after) before
      exact ⟨hs.sublist hsub, fun u hu => hpos u (hsub.subset hu)⟩
  | add_xct n a =>
    simp only [op_in_order] at hop
    rcases add_xct_cases g n a with ⟨-, h⟩ | ⟨before, cu, after, h1, h2, h3, h⟩
    · simp only [step, h]; exact ⟨hs, hpos⟩
    · simp only [step, h]
      rw [h1] at hs hpos hop
      obtain ⟨hamt, hsucc⟩ := post_in_order_split n a before cu after h2 h3 hop
      refine ⟨add_xct_relink_pairwise before after cu n a hs hamt hsucc, ?_⟩
      intro u hu
      rcases (mem_add_xct_relink before after _ u).1 hu with hu | rfl | hu
      · exact hpos u (by simp [hu])
      · have := hpos cu (by simp)
        simp only
        linarith
      · exact hpos u (by simp [hu])

theorem run_keeps_order (ops : List Op) (g : Group)
    (hs : g.users.Pairwise (fun u v => u.balance ≤ v.balance))
    (hpos : ∀ u ∈ g.users, 0 ≤ u.balance) (hops : ops_in_order g ops = true) (k : Nat) :
    (run g (ops.take k)).users.Pairwise (fun u v => u.balance ≤ v.balance) := by
  induction ops generalizing g k with
  | nil => simpa [run] using hs
  | cons op rest ih =>
    cases k with
    | zero => simpa [run] using hs
    | succ k =>
      simp only [ops_in_order, Bool.and_eq_true] at hops
      obtain ⟨h1, h2⟩ := step_keeps_order g op hs hpos hops.1
      simpa [run] using ih (step g op) h1 h2 hops.2 k

theorem sorted_by_balance_iff (users : List User) :
    sorted_by_balance users ↔ users.Pairwise (fun u v => u.balance ≤ v.balance) := by
  unfold sorted_by_balance
  haveI : IsTrans User (fun u v => u.balance ≤ v.balance) :=
    ⟨fun _ _ _ h1 h2 => le_trans h1 h2⟩
  exact List.chain'_iff_pairwise

theorem log_sum_cons (x : Xct) (xs : List Xct) (n : String) :
    log_sum (x :: xs) n = if x.name = n then x.amount + log_sum xs n else log_sum xs n := by
  by_cases h : x.name = n <;> simp [log_sum, List.filter_cons, h]

theorem log_sum_eq_zero (xs : List Xct) (n : String) (h : ∀ x ∈ xs, x.name ≠ n) :
    log_sum xs n = 0 := by
  have : xs.filter (fun x => decide (x.name = n)) = [] := by
    simpa [List.filter_eq_nil_iff] using h
  simp [log_sum, this]

theorem log_sum_filter_ne (xs : List Xct) (n m : String) (h : m ≠ n) :
    log_sum (xs.filter (fun x => decide (x.name ≠ n))) m = log_sum xs m := by
  induction xs with
  | nil => rfl
  | cons x rest ih =>
    simp only [ne_eq, decide_not] at ih ⊢
    by_cases hx : x.name = n
    · have hnm : ¬ n = m := fun e => h e.symm
      simp [List.filter_cons, hx, log_sum_cons, hnm, ih]
    · simp [List.filter_cons, hx, log_sum_cons, ih]

theorem step_consistent (g : Group) (op : Op) (hg : consistent g) : consistent (step g op) := by
  obtain ⟨hnd, hsc, hbal⟩ := hg
  cases op with
  | add_user n =>
    rcases add_user_cases g n with ⟨-, h⟩ | ⟨habs, h⟩
    · simp only [step, h]; exact ⟨hnd, hsc, hbal⟩
    · simp only [step, h]
      refine ⟨?_, ?_, ?_⟩
      · simp only [List.map_cons, List.nodup_cons, List.mem_map, not_exists, not_and]
        exact ⟨fun u hu => habs u hu, hnd⟩
      · intro x hx
        obtain ⟨u, hu, hn⟩ := hsc x hx
        exact ⟨u, List.mem_cons_of_mem _ hu, hn⟩
      · intro u hu
        rcases List.mem_cons.1 hu with rfl | hu
        · have hz : ∀ x ∈ g.xcts, x.name ≠ n := by
            intro x hx hxn
            obtain ⟨u, hu, hn⟩ := hsc x hx
            exact habs u hu (hn.trans hxn)
          simp [log_sum_eq_zero g.xcts n hz]
        · exact hbal u hu
  | remove_user n =>
    rcases remove_user_cases g n with ⟨-, h⟩ | ⟨before, cu, after, h1, h2, h3, -, h⟩
    · simp only [step, h]; exact ⟨hnd, hsc, hbal⟩
    · simp only [step, h]
      rw [h1] at hnd hsc hbal
      have hafter : ∀ u ∈ after, u.name ≠ n := by
        intro u hu hn
        simp only [List.map_append, List.map_cons, List.nodup_append, List.nodup_cons,
          List.mem_map, not_exists, not_and] at hnd
        exact hnd.2.1.1 u hu (hn.trans h2.symm)
      have hrest : ∀ u ∈ before ++ after, u.name ≠ n := by
        intro u hu
        rcases List.mem_append.1 hu with hu | hu
        · exact h3 u hu
        · exact hafter u hu
      have hsub : List.Sublist (before ++ after) (before ++ cu :: after) :=
        List.Sublist.append_left (List.sublist_cons_self cu after) before
      refine ⟨hnd.sublist (hsub.map _), ?_, ?_⟩
      · intro x hx
        simp only [List.mem_filter, decide_eq_true_eq] at hx
        obtain ⟨u, hu, hn⟩ := hsc x hx.1
        rcases List.mem_append.1 hu with hu | hu
        · exact ⟨u, List.mem_append_left _ hu, hn⟩
        · rcases List.mem_cons.1 hu with rfl | hu
          · exact absurd (hn.symm.trans h2) hx.2
          · exact ⟨u, List.mem_append_right _ hu, hn⟩
      · intro u hu
        rw [log_sum_filter_ne g.xcts n u.name (hrest u hu)]
        exact hbal u (hsub.subset hu)
  | add_xct n a =>
    rcases add_xct_cases g n a with ⟨-, h⟩ | ⟨before, cu, after, h1, h2, h3, h⟩
    · simp only [step, h]; exact ⟨hnd, hsc, hbal⟩
    · simp only [step, h]
      rw [h1] at hnd hsc hbal
      have hafter : ∀ u ∈ after, u.name ≠ n := by
        intro u hu hn
        simp only [List.map_append, List.map_cons, List.nodup_append, List.nodup_cons,
          List.mem_map, not_exists, not_and] at hnd
        exact hnd.2.1.1 u hu (hn.trans h2.symm)
      refine ⟨?_, ?_, ?_⟩
      · have hp : List.Perm (before ++ add_xct_relink ⟨n, cu.balance + a⟩ after)
            (before ++ (⟨n, cu.balance + a⟩ : User) :: after) :=
          List.Perm.append_left before (add_xct_relink_perm _ after)
        rw [(hp.map (fun u => u.name)).nodup_iff]
        simpa [h2] using hnd
      · intro x hx
        rcases List.mem_cons.1 hx with rfl | hx
        · exact ⟨⟨n, cu.balance + a⟩, (mem_add_xct_relink _ _ _ _).2 (Or.inr (Or.inl rfl)), rfl⟩
        · obtain ⟨u, hu, hn⟩ := hsc x hx
          rcases List.mem_append.1 hu with hu | hu
          · exact ⟨u, (mem_add_xct_relink _ _ _ _).2 (Or.inl hu), hn⟩
          · rcases List.mem_cons.1 hu with rfl | hu
            · exact ⟨⟨n, u.balance + a⟩, (mem_add_xct_relink _ _ _ _).2 (Or.inr (Or.inl rfl)),
                h2.symm.trans hn⟩
            · exact ⟨u, (mem_add_xct_relink _ _ _ _).2 (Or.inr (Or.inr hu)), hn⟩
      · intro u hu
        rcases (mem_add_xct_relink before after _ u).1 hu with hu | rfl | hu
        · have hne : n ≠ u.name := fun e => h3 u hu e.symm
          rw [log_sum_cons]
          simp only [hne, if_false]
          exact hbal u (by simp [hu])
        · rw [log_sum_cons]
          simp only [if_true]
          have := hbal cu (by simp)
          rw [h2] at this
          rw [this]; ring
        · have hne : n ≠ u.name := fun e => hafter u hu e.symm
          rw [log_sum_cons]
          simp only [hne, if_false]
          exact hbal u (by simp [hu])

theorem empty_group_consistent (name : String) : consistent (empty_group name) := by
  simp [consistent, empty_group]

theorem run_consistent (ops : List Op) (g : Group) (hg : consistent g) :
    consistent (run g ops) := by
  induction ops generalizing g with
  | nil => simpa [run] using hg
  | cons op rest ih => simpa [run] using ih (step g op) (step_consistent g op hg)

theorem map_post_of_ne (n : String) (a : ℚ) (l : List User) (h : ∀ u ∈ l, u.name ≠ n) :
    l.map (fun u => if u.name = n then (⟨u.name, u.balance + a⟩ : User) else u) = l := by
  induction l with
  | nil => rfl
  | cons c rest ih =>
    have hc : c.name ≠ n := h c (by simp)
    simp [hc, ih (fun u hu => h u (by simp [hu]))]

theorem zero_ne_neg_one : ¬ (0 : Int) = -1 := by decide

/-! ## Lemmas on the queries and the re-link -/

theorem recent_xct_loop_eq (nu : Int) (l : List Xct) (i : Int) :
    recent_xct_loop nu l i = l.take (nu - i).toNat := by
  induction l generalizing i with
  | nil => simp [recent_xct_loop]
  | cons c rest ih =>
    by_cases hi : i < nu
    · have hk : (nu - i).toNat = (nu - (i + 1)).toNat + 1 := by omega
      simp only [recent_xct_loop, hi, if_true, ih (i + 1)]
      rw [hk, List.take_succ_cons]
    · have hk : (nu - i).toNat = 0 := by omega
      simp only [recent_xct_loop, hi, if_false]
      rw [hk, List.take_zero]

theorem user_balance_of_split (g : Group) (n : String) (before : List User) (cu : User)
    (after : List User) (h : g.users = before ++ cu :: after) (hcu : cu.name = n)
    (hb : ∀ u ∈ before, u.name ≠ n) :
    user_balance g n = (0, [cu.balance]) := by
  rcases List.eq_nil_or_concat before with rfl | ⟨init, last, rfl⟩
  · simp at h
    have hf := find_prev_user_head g n cu after h hcu
    simp [user_balance, hf, h, hcu]
  · rw [List.concat_eq_append] at h hb
    have hlast : last.name ≠ n := hb last (by simp)
    have hinit : ∀ u ∈ init, u.name ≠ n := fun u hu => hb u (by simp [hu])
    have h2 : g.users = init ++ last :: cu :: after := by simp [h]
    have hf := find_prev_user_inner g n init last cu after h2 hinit hlast hcu
    have hd1 : List.drop init.length g.users = last :: cu :: after := by
      rw [h2]; simp
    simp [user_balance, hf, hd1, hlast]

theorem user_balance_of_absent (g : Group) (n : String)
    (h : ∀ u ∈ g.users, u.name ≠ n) : user_balance g n = (-1, []) := by
  simp [user_balance, (find_prev_user_none g n).2 h]

theorem find_first_named (before : List User) (cu : User) (after : List User) (n : String)
    (hcu : cu.name = n) (hb : ∀ u ∈ before, u.name ≠ n) :
    (before ++ cu :: after).find? (fun u => decide (u.name = n)) = some cu := by
  induction before with
  | nil => simp [hcu]
  | cons b bs ih =>
    have hbn : b.name ≠ n := hb b (by simp)
    simpa [List.find?_cons, hbn] using ih (fun u hu => hb u (by simp [hu]))

theorem find_group_eq (reg : List Group) (n : String) :
    find_group reg n = reg.find? (fun g => decide (g.name = n)) := by
  induction reg with
  | nil => rfl
  | cons c rest ih =>
    by_cases hc : c.name = n
    · simp [find_group, hc]
    · simp [find_group, hc, ih]

theorem add_xct_relink_split (u : User) (after : List User) :
    ∃ passed rest, after = passed ++ rest ∧ add_xct_relink u after = passed ++ u :: rest := by
  cases after with
  | nil => exact ⟨[], [], rfl, rfl⟩
  | cons temp rest =>
    obtain ⟨p, h1, h2, -, -⟩ := add_xct_scan_spec u.balance rest temp
    refine ⟨temp :: p, (add_xct_scan u.balance temp rest).2, h2, ?_⟩
    simp only [add_xct_relink]
    rw [h1]

/-! ## The claims -/

/-- C1 (as stated, refuted): a roster reached by `add_user` and `add_xct` calls need not
be sorted. With non-negative amounts the re-link of `add_xct` carries the target past its
successor without comparing the two; with a negative amount nothing moves backward. -/
theorem C1_counterexample :
    ¬ sorted_by_balance (run (empty_group "g")
        [Op.add_user "b", Op.add_xct "b" 10, Op.add_user "a", Op.add_xct "a" 5]).users ∧
    ¬ sorted_by_balance (run (empty_group "g")
        [Op.add_user "a", Op.add_xct "a" (-5), Op.add_user "b"]).users := by
  have h1 : (run (empty_group "g")
      [Op.add_user "b", Op.add_xct "b" 10, Op.add_user "a", Op.add_xct "a" 5]).users =
      [⟨"b", 10⟩, ⟨"a", 5⟩] := by decide!
  have h2 : (run (empty_group "g")
      [Op.add_user "a", Op.add_xct "a" (-5), Op.add_user "b"]).users =
      [⟨"b", 0⟩, ⟨"a", -5⟩] := by decide!
  rw [h1, h2]
  constructor
  · simp [sorted_by_balance]; norm_num
  · simp [sorted_by_balance]

/-- C1 (amended): from an empty group, after every call of a sequence of `add_user` and
`add_xct` calls (`remove_user` calls may be mixed in) in which every post that finds its
user has a non-negative amount and a target that is last in the roster or at least
reaches its successor's balance, the roster is sorted by non-decreasing balance. -/
theorem C1_roster_sorted_in_order (name : String) (ops : List Op)
    (h : ops_in_order (empty_group name) ops = true) (k : Nat) :
    sorted_by_balance (run (empty_group name) (ops.take k)).users := by
  rw [sorted_by_balance_iff]
  exact run_keeps_order ops (empty_group name) (by simp [empty_group])
    (by simp [empty_group]) h k

theorem C1_roster_sorted_in_order_witness :
    ops_in_order (empty_group "west")
        [Op.add_user "alice", Op.add_user "bob", Op.add_xct "alice" 10,
          Op.add_xct "bob" 15] = true ∧
      sorted_by_balance (run (empty_group "west")
        (List.take 4 [Op.add_user "alice", Op.add_user "bob", Op.add_xct "alice" 10,
          Op.add_xct "bob" 15])).users :=
  ⟨by decide!, C1_roster_sorted_in_order "west" _ (by decide!) 4⟩

/-- C2: in every state reached from an empty group by `add_user`, `remove_user` and
`add_xct` calls, each roster user's balance is the sum of the amounts of the log
entries carrying that user's name. -/
theorem C2_balance_is_log_sum (name : String) (ops : List Op) (u : User)
    (hu : u ∈ (run (empty_group name) ops).users) :
    u.balance = log_sum (run (empty_group name) ops).xcts u.name :=
  (run_consistent ops (empty_group name) (empty_group_consistent name)).2.2 u hu

theorem C2_balance_is_log_sum_witness :
    (⟨"alice", 7⟩ : User) ∈ (run (empty_group "west")
        [Op.add_user "alice", Op.add_user "bob", Op.add_xct "alice" 10,
          Op.add_xct "bob" 15, Op.add_xct "alice" (-3), Op.remove_user "bob"]).users ∧
      (⟨"alice", 7⟩ : User).balance = log_sum (run (empty_group "west")
        [Op.add_user "alice", Op.add_user "bob", Op.add_xct "alice" 10,
          Op.add_xct "bob" 15, Op.add_xct "alice" (-3), Op.remove_user "bob"]).xcts "alice" :=
  ⟨by decide!, C2_balance_is_log_sum "west" _ ⟨"alice", 7⟩ (by decide!)⟩

/-- C3: when `remove_user group u` succeeds, `recent_xct` on the resulting group prints
no entry whose name is `u`, whatever the count. -/
theorem C3_remove_user_cascade (g : Group) (u : String) (n : Int)
    (h : (remove_user g u).1 = 0) :
    ∀ x ∈ recent_xct (remove_user g u).2 n, x.name ≠ u := by
  intro x hx
  have hmem := recent_xct_loop_mem n _ 0 x hx
  rcases remove_user_cases g u with ⟨-, hr⟩ | ⟨before, cu, after, -, -, -, -, hr⟩
  · rw [hr] at h; simp at h
  · rw [hr] at hmem
    simp only [List.mem_filter, decide_eq_true_eq] at hmem
    exact hmem.2

theorem C3_remove_user_cascade_witness :
    (remove_user ⟨"west", [⟨"alice", 10⟩, ⟨"bob", 15⟩],
        [⟨"bob", 15⟩, ⟨"alice", 10⟩]⟩ "bob").1 = 0 ∧
      ∀ x ∈ recent_xct (remove_user ⟨"west", [⟨"alice", 10⟩, ⟨"bob", 15⟩],
        [⟨"bob", 15⟩, ⟨"alice", 10⟩]⟩ "bob").2 5, x.name ≠ "bob" :=
  ⟨by decide!, C3_remove_user_cascade _ "bob" 5 (by decide!)⟩

/-- C4: the scenario on the new group "west": two users added, alice +10 gives
[bob(0), alice(10)], bob +15 gives [alice(10), bob(15)], `under_paid` prints alice,
and after removing bob `recent_xct` with count 5 prints only (alice, 10); every call
returns 0. -/
theorem C4_west_scenario :
    add_user (empty_group "west") "alice" = (0, ⟨"west", [⟨"alice", 0⟩], []⟩) ∧
    add_user ⟨"west", [⟨"alice", 0⟩], []⟩ "bob" =
      (0, ⟨"west", [⟨"bob", 0⟩, ⟨"alice", 0⟩], []⟩) ∧
    add_xct ⟨"west", [⟨"bob", 0⟩, ⟨"alice", 0⟩], []⟩ "alice" 10 =
      (0, ⟨"west", [⟨"bob", 0⟩, ⟨"alice", 10⟩], [⟨"alice", 10⟩]⟩) ∧
    add_xct ⟨"west", [⟨"bob", 0⟩, ⟨"alice", 10⟩], [⟨"alice", 10⟩]⟩ "bob" 15 =
      (0, ⟨"west", [⟨"alice", 10⟩, ⟨"bob", 15⟩], [⟨"bob", 15⟩, ⟨"alice", 10⟩]⟩) ∧
    under_paid ⟨"west", [⟨"alice", 10⟩, ⟨"bob", 15⟩], [⟨"bob", 15⟩, ⟨"alice", 10⟩]⟩ =
      (0, ["alice"]) ∧
    remove_user ⟨"west", [⟨"alice", 10⟩, ⟨"bob", 15⟩], [⟨"bob", 15⟩, ⟨"alice", 10⟩]⟩ "bob" =
      (0, ⟨"west", [⟨"alice", 10⟩], [⟨"alice", 10⟩]⟩) ∧
    recent_xct ⟨"west", [⟨"alice", 10⟩], [⟨"alice", 10⟩]⟩ 5 = [⟨"alice", 10⟩] := by
  decide!

/-- C5: when exactly one roster user is called `n`, `add_xct group n a` returns 0, puts
the entry (n, a) in front of the unchanged old log, and leaves a roster that is a
permutation of the old one with `a` added to that user's balance and every other user
as it was. -/
theorem C5_add_xct_effect (g : Group) (n : String) (a : ℚ)
    (h : (g.users.filter (fun u => decide (u.name = n))).length = 1) :
    (add_xct g n a).1 = 0 ∧
    (add_xct g n a).2.xcts = ⟨n, a⟩ :: g.xcts ∧
    List.Perm (add_xct g n a).2.users
      (g.users.map (fun u => if u.name = n then (⟨u.name, u.balance + a⟩ : User) else u)) := by
  rcases add_xct_cases g n a with ⟨habs, -⟩ | ⟨before, cu, after, h1, h2, h3, hr⟩
  · have : g.users.filter (fun u => decide (u.name = n)) = [] := by
      simpa [List.filter_eq_nil_iff] using habs
    rw [this] at h
    simp at h
  · have hbf : before.filter (fun u => decide (u.name = n)) = [] := by
      simpa [List.filter_eq_nil_iff] using h3
    have haf : ∀ u ∈ after, u.name ≠ n := by
      rw [h1, List.filter_append, hbf, List.filter_cons] at h
      simp only [h2, decide_True, if_true, List.nil_append, List.length_cons,
        add_left_eq_self, List.length_eq_zero] at h
      simpa [List.filter_eq_nil_iff] using h
    rw [hr]
    refine ⟨rfl, rfl, ?_⟩
    simp only
    rw [h1, List.map_append, List.map_cons, map_post_of_ne n a before h3,
      map_post_of_ne n a after haf]
    simp only [h2, if_true]
    exact List.Perm.append_left before (add_xct_relink_perm _ after)

theorem C5_add_xct_effect_witness :
    (add_xct ⟨"west", [⟨"bob", 0⟩, ⟨"alice", 10⟩, ⟨"carol", 12⟩, ⟨"dave", 20⟩],
        [⟨"alice", 10⟩]⟩ "bob" 15).1 = 0 ∧
    (add_xct ⟨"west", [⟨"bob", 0⟩, ⟨"alice", 10⟩, ⟨"carol", 12⟩, ⟨"dave", 20⟩],
        [⟨"alice", 10⟩]⟩ "bob" 15).2.xcts = ⟨"bob", 15⟩ :: [⟨"alice", 10⟩] ∧
    List.Perm
      (add_xct ⟨"west", [⟨"bob", 0⟩, ⟨"alice", 10⟩, ⟨"carol", 12⟩, ⟨"dave", 20⟩],
        [⟨"alice", 10⟩]⟩ "bob" 15).2.users
      (List.map (fun u => if u.name = "bob" then (⟨u.name, u.balance + 15⟩ : User) else u)
        [⟨"bob", 0⟩, ⟨"alice", 10⟩, ⟨"carol", 12⟩, ⟨"dave", 20⟩]) :=
  C5_add_xct_effect _ "bob" 15 (by decide)

/-- C6: `add_xct` returns -1 exactly when no roster user is called `user_name`, and a
call that returns -1 leaves the group (roster order, balances and log) as it was. -/
theorem C6_add_xct_fails_iff_absent (g : Group) (n : String) (a : ℚ) :
    ((add_xct g n a).1 = -1 ↔ ∀ u ∈ g.users, u.name ≠ n) ∧
    ((add_xct g n a).1 = -1 → (add_xct g n a).2 = g) := by
  rcases add_xct_cases g n a with ⟨habs, hr⟩ | ⟨before, cu, after, h1, h2, -, hr⟩
  · rw [hr]
    exact ⟨⟨fun _ => habs, fun _ => rfl⟩, fun _ => rfl⟩
  · rw [hr]
    refine ⟨⟨fun hc => absurd hc zero_ne_neg_one, fun hc => ?_⟩, fun hc => absurd hc zero_ne_neg_one⟩
    exact absurd h2 (hc cu (by simp [h1]))

/-- C7: `add_user` returns -1 exactly when the roster already has a user of that name,
and then the group is unchanged; otherwise it returns 0, the roster is the new user
(that name, balance 0) followed by the old roster, and the log is unchanged. -/
theorem C7_add_user_front_or_duplicate (g : Group) (n : String) :
    ((add_user g n).1 = -1 ↔ ∃ u ∈ g.users, u.name = n) ∧
    ((add_user g n).1 = -1 → (add_user g n).2 = g) ∧
    ((add_user g n).1 ≠ -1 →
      (add_user g n).1 = 0 ∧ (add_user g n).2.users = ⟨n, 0⟩ :: g.users ∧
        (add_user g n).2.xcts = g.xcts) := by
  rcases add_user_cases g n with ⟨hex, hr⟩ | ⟨habs, hr⟩
  · rw [hr]
    exact ⟨⟨fun _ => hex, fun _ => rfl⟩, fun _ => rfl, fun hc => absurd rfl hc⟩
  · rw [hr]
    refine ⟨⟨fun hc => absurd hc zero_ne_neg_one, fun hc => ?_⟩, fun hc => absurd hc zero_ne_neg_one,
      fun _ => ⟨rfl, rfl, rfl⟩⟩
    obtain ⟨u, hu, hn⟩ := hc
    exact absurd hn (habs u hu)

/-- C8: `add_group` returns -1 exactly when the registry already has a group of that
name, and then the registry is unchanged; otherwise it returns 0 and the registry is the
old one, every group as it was, followed by the new group of that name. The empty
registry is included. -/
theorem C8_add_group_tail_or_duplicate (uninit : List Xct) (reg : List Group) (n : String) :
    ((add_group uninit reg n).1 = -1 ↔ ∃ g ∈ reg, g.name = n) ∧
    ((add_group uninit reg n).1 = -1 → (add_group uninit reg n).2 = reg) ∧
    ((add_group uninit reg n).1 ≠ -1 →
      (add_group uninit reg n).1 = 0 ∧
        (add_group uninit reg n).2 = reg ++ [⟨n, [], uninit⟩]) := by
  rw [add_group_eq]
  by_cases hex : ∃ g ∈ reg, g.name = n
  · rw [if_pos hex]
    exact ⟨⟨fun _ => hex, fun _ => rfl⟩, fun _ => rfl, fun hc => absurd rfl hc⟩
  · rw [if_neg hex]
    refine ⟨⟨fun hc => absurd hc zero_ne_neg_one, fun hc => absurd hc hex⟩,
      fun hc => absurd hc zero_ne_neg_one, fun _ => ⟨rfl, rfl⟩⟩

/-- C9: `remove_user` returns -1 exactly when no roster user has that name, and then
roster and log are unchanged; otherwise it returns 0 and the roster is the old one
without the first user of that name, the others keeping balance and order. -/
theorem C9_remove_user_erases_first (g : Group) (n : String) :
    ((remove_user g n).1 = -1 ↔ ∀ u ∈ g.users, u.name ≠ n) ∧
    ((remove_user g n).1 = -1 → (remove_user g n).2 = g) ∧
    ((remove_user g n).1 ≠ -1 →
      (remove_user g n).1 = 0 ∧
        (remove_user g n).2.users = g.users.eraseP (fun u => decide (u.name = n))) := by
  rcases remove_user_cases g n with ⟨habs, hr⟩ | ⟨before, cu, after, h1, h2, -, h4, hr⟩
  · rw [hr]
    exact ⟨⟨fun _ => habs, fun _ => rfl⟩, fun _ => rfl, fun hc => absurd rfl hc⟩
  · rw [hr]
    refine ⟨⟨fun hc => absurd hc zero_ne_neg_one, fun hc => ?_⟩, fun hc => absurd hc zero_ne_neg_one,
      fun _ => ⟨rfl, h4.symm⟩⟩
    exact absurd h2 (hc cu (by simp [h1]))

/-- C10: `remove_xct` leaves exactly the log entries whose name differs from
`user_name`, in their old order, and does not touch the roster. -/
theorem C10_remove_xct_filters (g : Group) (n : String) :
    (remove_xct g n).xcts = g.xcts.filter (fun x => decide (x.name ≠ n)) ∧
    (remove_xct g n).users = g.users :=
  ⟨remove_xct_xcts g n, rfl⟩

/-- C11: `recent_xct` prints exactly the first min(n, length of the log) entries of the
log, in log order; nothing for n at most 0, the whole log for n at least its length. -/
theorem C11_recent_xct_takes_prefix (g : Group) (n : Int) :
    recent_xct g n = g.xcts.take (min n.toNat g.xcts.length) ∧
    (n ≤ 0 → recent_xct g n = []) ∧
    ((g.xcts.length : Int) ≤ n → recent_xct g n = g.xcts) := by
  have h : recent_xct g n = g.xcts.take n.toNat := by
    simp [recent_xct, recent_xct_loop_eq]
  refine ⟨?_, ?_, ?_⟩
  · rcases Nat.le_total n.toNat g.xcts.length with hle | hle
    · rw [h, Nat.min_eq_left hle]
    · rw [h, Nat.min_eq_right hle, List.take_of_length_le hle, List.take_length]
  · intro hn
    have : n.toNat = 0 := by omega
    rw [h, this, List.take_zero]
  · intro hn
    rw [h]
    exact List.take_of_length_le (by omega)

/-- C12 (code at the failing input): with a first balance of 21/2, reached by one post,
`under_paid` returns 0 and prints no name, not even the first user's: line 225 keeps the
first balance in an `int`, and 21/2 is not equal to 10. -/
theorem C12_under_paid_fractional :
    run (empty_group "g") [Op.add_user "a", Op.add_xct "a" (21 / 2)] =
      ⟨"g", [⟨"a", 21 / 2⟩], [⟨"a", 21 / 2⟩]⟩ ∧
    under_paid ⟨"g", [⟨"a", 21 / 2⟩], [⟨"a", 21 / 2⟩]⟩ = (0, []) := by
  decide!

/-- C13: `user_balance` returns -1 exactly when no roster user has the name (so for every
name on an empty roster); otherwise it returns 0 and prints the balance of the first
roster user of that name, at the head or further down. -/
theorem C13_user_balance_first_named (g : Group) (n : String) :
    ((user_balance g n).1 = -1 ↔ ∀ u ∈ g.users, u.name ≠ n) ∧
    ((user_balance g n).1 = -1 → (user_balance g n).2 = []) ∧
    (∀ u, g.users.find? (fun v => decide (v.name = n)) = some u →
      user_balance g n = (0, [u.balance])) ∧
    (∀ m, user_balance ⟨g.name, [], g.xcts⟩ m = (-1, [])) := by
  refine ⟨?_, ?_, ?_, fun m => user_balance_of_absent _ m (by simp)⟩
  · by_cases h : ∃ u ∈ g.users, u.name = n
    · obtain ⟨before, cu, after, h1, h2, h3, -⟩ := exists_first_named g.users n h
      rw [user_balance_of_split g n before cu after h1 h2 h3]
      refine ⟨fun hc => absurd hc zero_ne_neg_one, fun hc => ?_⟩
      exact absurd h2 (hc cu (by simp [h1]))
    · have h2 : ∀ u ∈ g.users, u.name ≠ n := fun u hu hn => h ⟨u, hu, hn⟩
      rw [user_balance_of_absent g n h2]
      exact ⟨fun _ => h2, fun _ => rfl⟩
  · by_cases h : ∃ u ∈ g.users, u.name = n
    · obtain ⟨before, cu, after, h1, h2, h3, -⟩ := exists_first_named g.users n h
      rw [user_balance_of_split g n before cu after h1 h2 h3]
      exact fun hc => absurd hc zero_ne_neg_one
    · have h2 : ∀ u ∈ g.users, u.name ≠ n := fun u hu hn => h ⟨u, hu, hn⟩
      rw [user_balance_of_absent g n h2]
      exact fun _ => rfl
  · intro u hu
    have hmem : u ∈ g.users := List.mem_of_find?_eq_some hu
    have hname : u.name = n := by simpa using List.find?_some hu
    obtain ⟨before, cu, after, h1, h2, h3, -⟩ := exists_first_named g.users n ⟨u, hmem, hname⟩
    rw [h1, find_first_named before cu after n h2 h3] at hu
    have hcu : cu = u := Option.some.inj hu
    rw [← hcu]
    exact user_balance_of_split g n before cu after h1 h2 h3

/-- C14 (code at the failing input): `add_group` leaves the new group's `xcts` field as
the allocated block held it; when that is a non-empty chain, the new group has no users
but `recent_xct` prints entries from it. -/
theorem C14_add_group_log_unassigned :
    add_group [⟨"x", 1⟩] [] "west" = (0, [⟨"west", [], [⟨"x", 1⟩]⟩]) ∧
    list_users ⟨"west", [], [⟨"x", 1⟩]⟩ = [] ∧
    under_paid ⟨"west", [], [⟨"x", 1⟩]⟩ = (-1, []) ∧
    recent_xct ⟨"west", [], [⟨"x", 1⟩]⟩ 5 = [⟨"x", 1⟩] := by
  decide!

/-- C15: `find_group` returns `NULL` exactly when no group of the registry has the name,
otherwise the first group of that name in registry order; after a successful `add_group`
it finds the group just added under its name and answers as before for other names. -/
theorem C15_find_group_first_named (uninit : List Xct) (reg : List Group) (n : String) :
    (find_group reg n = none ↔ ∀ g ∈ reg, g.name ≠ n) ∧
    find_group reg n = reg.find? (fun g => decide (g.name = n)) ∧
    ((add_group uninit reg n).1 = 0 →
      find_group (add_group uninit reg n).2 n = some ⟨n, [], uninit⟩ ∧
      ∀ m, m ≠ n → find_group (add_group uninit reg n).2 m = find_group reg m) := by
  refine ⟨?_, find_group_eq reg n, ?_⟩
  · rw [find_group_eq, List.find?_eq_none]
    simp
  · rw [add_group_eq]
    by_cases hex : ∃ g ∈ reg, g.name = n
    · rw [if_pos hex]
      intro hc
      exact absurd hc.symm zero_ne_neg_one
    · rw [if_neg hex]
      intro _
      have hnone : reg.find? (fun g => decide (g.name = n)) = none := by
        rw [List.find?_eq_none]
        intro g hg
        simpa using fun hn => hex ⟨g, hg, hn⟩
      refine ⟨?_, ?_⟩
      · simp [find_group_eq, List.find?_append, hnone]
      · intro m hm
        have hnm : ¬ n = m := fun e => hm e.symm
        simp [find_group_eq, List.find?_append, hnm]

/-- C16: in every state reached from an empty group by `add_user`, `remove_user` and
`add_xct` calls, no two roster users have the same name. -/
theorem C16_names_unique (name : String) (ops : List Op) :
    ((run (empty_group name) ops).users.map (fun u => u.name)).Nodup :=
  (run_consistent ops (empty_group name) (empty_group_consistent name)).1

/-- C17: in every state reached from an empty group by `add_user`, `remove_user` and
`add_xct` calls, every log entry carries the name of a user currently in the roster. -/
theorem C17_log_scoped_to_roster (name : String) (ops : List Op) (x : Xct)
    (hx : x ∈ (run (empty_group name) ops).xcts) :
    ∃ u ∈ (run (empty_group name) ops).users, u.name = x.name :=
  (run_consistent ops (empty_group name) (empty_group_consistent name)).2.1 x hx

theorem C17_log_scoped_to_roster_witness :
    (⟨"alice", 10⟩ : Xct) ∈ (run (empty_group "west")
        [Op.add_user "alice", Op.add_user "bob", Op.add_xct "alice" 10,
          Op.add_xct "bob" 15, Op.remove_user "bob", Op.add_xct "bob" 1]).xcts ∧
      ∃ u ∈ (run (empty_group "west")
        [Op.add_user "alice", Op.add_user "bob", Op.add_xct "alice" 10,
          Op.add_xct "bob" 15, Op.remove_user "bob", Op.add_xct "bob" 1]).users,
        u.name = (⟨"alice", 10⟩ : Xct).name :=
  ⟨by decide!, C17_log_scoped_to_roster "west" _ ⟨"alice", 10⟩ (by decide!)⟩

/-- C18 (code at the failing input): on the roster [a(0), b(10)] the post a +5 succeeds
and leaves [b(10), a(5)]: the target is linked behind its successor although the
successor's balance 10 is greater than the updated balance 5. -/
theorem C18_add_xct_passes_greater_successor :
    add_xct ⟨"g", [⟨"a", 0⟩, ⟨"b", 10⟩], [⟨"b", 10⟩]⟩ "a" 5 =
      (0, ⟨"g", [⟨"b", 10⟩, ⟨"a", 5⟩], [⟨"a", 5⟩, ⟨"b", 10⟩]⟩) := by
  decide!

/-- C19: with unique names, a successful `add_xct` of any amount takes the target out of
the roster and links it back behind a (possibly empty) run of its old successors: the
users before it stay before it and all other users keep their relative order. -/
theorem C19_add_xct_moves_forward (g : Group) (n : String) (a : ℚ)
    (hnd : (g.users.map (fun u => u.name)).Nodup) (hok : (add_xct g n a).1 = 0) :
    ∃ before cu passed rest,
      g.users = before ++ cu :: (passed ++ rest) ∧ cu.name = n ∧
      (∀ u ∈ before ++ (passed ++ rest), u.name ≠ n) ∧
      (add_xct g n a).2.users = before ++ (passed ++ ⟨n, cu.balance + a⟩ :: rest) := by
  rcases add_xct_cases g n a with ⟨-, hr⟩ | ⟨before, cu, after, h1, h2, h3, hr⟩
  · rw [hr] at hok
    exact absurd hok.symm zero_ne_neg_one
  · obtain ⟨passed, rest, hsplit, hrel⟩ := add_xct_relink_split ⟨n, cu.balance + a⟩ after
    have hafter : ∀ u ∈ after, u.name ≠ n := by
      intro u hu hn
      rw [h1] at hnd
      simp only [List.map_append, List.map_cons, List.nodup_append, List.nodup_cons,
        List.mem_map, not_exists, not_and] at hnd
      exact hnd.2.1.1 u hu (hn.trans h2.symm)
    refine ⟨before, cu, passed, rest, by rw [h1, hsplit], h2, ?_, by rw [hr, hrel]⟩
    intro u hu
    rcases List.mem_append.1 hu with hu | hu
    · exact h3 u hu
    · exact hafter u (hsplit ▸ hu)

theorem C19_add_xct_moves_forward_witness :
    ((Group.mk "west" [⟨"bob", 0⟩, ⟨"alice", 10⟩, ⟨"carol", 12⟩, ⟨"dave", 20⟩] []).users.map
        (fun u => u.name)).Nodup ∧
      (add_xct ⟨"west", [⟨"bob", 0⟩, ⟨"alice", 10⟩, ⟨"carol", 12⟩, ⟨"dave", 20⟩], []⟩
        "alice" (-4)).1 = 0 ∧
      ∃ before cu passed rest,
        (Group.mk "west" [⟨"bob", 0⟩, ⟨"alice", 10⟩, ⟨"carol", 12⟩, ⟨"dave", 20⟩] []).users =
          before ++ cu :: (passed ++ rest) ∧ cu.name = "alice" ∧
        (∀ u ∈ before ++ (passed ++ rest), u.name ≠ "alice") ∧
        (add_xct ⟨"west", [⟨"bob", 0⟩, ⟨"alice", 10⟩, ⟨"carol", 12⟩, ⟨"dave", 20⟩], []⟩
          "alice" (-4)).2.users = before ++ (passed ++ ⟨"alice", cu.balance + (-4)⟩ :: rest) :=
  ⟨by decide, by decide!, C19_add_xct_moves_forward _ "alice" (-4) (by decide) (by decide!)⟩

/-- C20: when the roster is sorted and has unique names, a successful `add_xct` with a
non-negative amount whose target is last or at least reaches its immediate successor's
balance leaves the roster sorted by non-decreasing balance. -/
theorem C20_add_xct_keeps_sorted (g : Group) (n : String) (a : ℚ)
    (hs : sorted_by_balance g.users) (_hnd : (g.users.map (fun u => u.name)).Nodup)
    (hok : (add_xct g n a).1 = 0) (ha : 0 ≤ a)
    (hsucc : ∀ before cu t rest, g.users = before ++ cu :: t :: rest → cu.name = n →
      t.balance ≤ cu.balance + a) :
    sorted_by_balance (add_xct g n a).2.users := by
  rcases add_xct_cases g n a with ⟨-, hr⟩ | ⟨before, cu, after, h1, h2, -, hr⟩
  · rw [hr] at hok
    exact absurd hok.symm zero_ne_neg_one
  · rw [sorted_by_balance_iff] at hs ⊢
    rw [hr]
    rw [h1] at hs
    refine add_xct_relink_pairwise before after cu n a hs ha ?_
    intro t ht
    cases after with
    | nil => simp at ht
    | cons t0 rest =>
      simp only [List.head?_cons, Option.mem_def, Option.some.injEq] at ht
      subst ht
      exact hsucc before cu t0 rest h1 h2

theorem C20_add_xct_keeps_sorted_witness :
    sorted_by_balance (Group.mk "west" [⟨"bob", 0⟩, ⟨"alice", 10⟩] [⟨"alice", 10⟩]).users ∧
      sorted_by_balance
        (add_xct ⟨"west", [⟨"bob", 0⟩, ⟨"alice", 10⟩], [⟨"alice", 10⟩]⟩ "bob" 15).2.users :=
  ⟨by simp [sorted_by_balance],
    C20_add_xct_keeps_sorted ⟨"west", [⟨"bob", 0⟩, ⟨"alice", 10⟩], [⟨"alice", 10⟩]⟩ "bob" 15
      (by simp [sorted_by_balance]) (by decide) (by decide!) (by norm_num)
      (by
        intro before cu t rest h hn
        cases before with
        | nil =>
          simp only [List.nil_append, List.cons.injEq] at h
          obtain ⟨rfl, rfl, -⟩ := h
          norm_num
        | cons b bs =>
          simp only [List.cons_append, List.cons.injEq] at h
          obtain ⟨rfl, h⟩ := h
          have hl := congrArg List.length h
          simp at hl
          omega)⟩

end Buxfer
